import Mathlib

/-!
Shallow embedding of src/tools/parse_opb82_scheme.py (OPB-82 scheme parser).

The script detects colored blobs in a reactor-layout image, quantizes blob
centroids to a grid, normalizes the occupied grid coordinates to a dense
range, and emits a structured record.

Modelling conventions:
* Python ints are Lean Int / Nat; the float centroid arithmetic
  (exact integer sums divided by a count, and division by the pitch) is
  modelled over the rationals, which is the exact value the Python floats
  approximate.
* The color comparison in the source computes
  (sum of squared channel differences) ** 0.5 < tolerance on exact integer
  sums; since the square root is strictly monotone and both sides are
  non-negative, this is equivalent to comparing the squared distance with
  tolerance^2, which is what the embedding does (exactly, with no rounding).
* Python dicts iterate in insertion order (Python >= 3.7), so the COLORS
  dict and the per-class cells dict are modelled by the fixed class list
  below.
* The while-loop of the BFS flood fill is modelled with explicit fuel.
  Every iteration dequeues exactly one entry; entries are enqueued only
  when a pixel is newly marked visited (at most width*height markings, four
  enqueues each), so the total number of iterations is bounded by
  1 + 4*width*height and the chosen fuel always drains the queue.
* The prints and file writes are dropped, except that the print in
  normalize_coordinates evaluates min() over the sorted coordinate lists,
  which raises ValueError on an empty collection; that failure is modelled
  by an Except error.
-/

namespace RBMK

/-- A color is a tuple of channel values, as in the Python source where
pixels are 3- or 4-tuples of ints. -/
abbrev Color := List Int

/-- The six cell classes of the scheme, in the order of the COLORS dict. -/
inductive CellType where
  | AZ | TK | RR | AR | LAR | USP
deriving DecidableEq, Repr, Fintype

open CellType

/-- Insertion order of the COLORS dict (Python dicts iterate in insertion
order), used wherever the source iterates over COLORS or the cells dict. -/
def classOrder : List CellType := [AZ, TK, RR, AR, LAR, USP]

/-- Reference RGB triple of each class (the COLORS dict values). -/
def COLORS : CellType → Color
  | AZ => [0xDE, 0x1A, 0x03]
  | TK => [0xA5, 0xB5, 0xA4]
  | RR => [0xEB, 0xEB, 0xEB]
  | AR => [0x01, 0xB1, 0x91]
  | LAR => [0x00, 0x67, 0xCE]
  | USP => [0xFE, 0xD8, 0x01]

/-- COLOR_TOLERANCE = 25. -/
def COLOR_TOLERANCE : Int := 25

/-- Squared Euclidean color distance: sum over zipped channels of squared
differences.  The source takes the square root of this sum and compares it
with the tolerance; the embedding compares the square with tolerance^2,
which is equivalent for these non-negative exact integers. -/
def color_distance_sq (c1 c2 : Color) : Int :=
  ((c1.zip c2).map fun p => (p.1 - p.2) ^ 2).sum

/-- Alpha stripping: a 4-tuple pixel is cut down to its first three
channels (pixel[:3] under the len(pixel) == 4 test). -/
def stripAlpha (p : Color) : Color :=
  if p.length = 4 then p.take 3 else p

/-- Tests a pixel against one reference color within the tolerance, as the
comparison color_distance(pixel, color) < tolerance does (squared form). -/
def colorWithinTol (target : Color) (tol : Int) (p : Color) : Bool :=
  color_distance_sq p target < tol ^ 2

/-- identify_color: strips alpha, then returns the first class of the
COLORS dict whose reference color is within COLOR_TOLERANCE, or none. -/
def identify_color (p : Color) : Option CellType :=
  classOrder.find? fun t => colorWithinTol (COLORS t) COLOR_TOLERANCE (stripAlpha p)

/-- Position of a class in the COLORS enumeration order. -/
def classIdx (t : CellType) : Nat := classOrder.indexOf t





/-! Blob detector: find_connected_components with its inner BFS flood fill. -/

/-- A pixel coordinate; the BFS enqueues x-1 and y-1 so coordinates can go
negative and are modelled as integers. -/
abbrev Pos := Int × Int

/-- The image: dimensions plus the pixel accessor img.load() provides.
The accessor is total here; the checked accessor getPixelE below models
the fact that a real access outside the extent would fail. -/
structure Image where
  width : Nat
  height : Nat
  pixel : Int → Int → Color

/-- A coordinate lies inside the image extent. -/
def inBounds (img : Image) (p : Pos) : Prop :=
  0 ≤ p.1 ∧ p.1 < (img.width : Int) ∧ 0 ≤ p.2 ∧ p.2 < (img.height : Int)

instance (img : Image) (p : Pos) : Decidable (inBounds img p) := by
  unfold inBounds
  infer_instance

/-- The matches_color closure of find_connected_components: strip alpha,
compare with the target color under the tolerance. -/
def matches_color (target : Color) (tol : Int) (p : Color) : Bool :=
  colorWithinTol target tol (stripAlpha p)

/-- Fuel that always drains the BFS queue: each iteration dequeues one
entry, and entries are enqueued only when a pixel is newly marked visited
(at most width*height markings, four enqueues each), so at most
1 + 4*width*height iterations ever happen from a single-element queue. -/
def bfsFuel (img : Image) : Nat := 4 * img.width * img.height + 1

/-- The while-loop of flood_fill: pop a coordinate; skip it if already
visited, out of bounds, or not matching; otherwise mark it visited, record
it in the component, and enqueue its four neighbors (FIFO order). Returns
the final visited set and the component pixel list. -/
def bfsLoop (img : Image) (target : Color) (tol : Int) :
    Nat → List Pos → List Pos → List Pos → List Pos × List Pos
  | 0, _, visited, comp => (visited, comp)
  | _ + 1, [], visited, comp => (visited, comp)
  | fuel + 1, (x, y) :: rest, visited, comp =>
    if (x, y) ∈ visited then
      bfsLoop img target tol fuel rest visited comp
    else if x < 0 ∨ (img.width : Int) ≤ x ∨ y < 0 ∨ (img.height : Int) ≤ y then
      bfsLoop img target tol fuel rest visited comp
    else if ¬ matches_color target tol (img.pixel x y) then
      bfsLoop img target tol fuel rest visited comp
    else
      bfsLoop img target tol fuel
        (rest ++ [(x + 1, y), (x - 1, y), (x, y + 1), (x, y - 1)])
        ((x, y) :: visited) (comp ++ [(x, y)])

/-- Centroid reduction at the end of flood_fill: arithmetic mean of the
member pixel coordinates (exact, over the rationals) plus the area. -/
def centroidOf (pl : List Pos) : ℚ × ℚ × Nat :=
  (((pl.map Prod.fst).sum : ℚ) / (pl.length : ℚ),
   ((pl.map Prod.snd).sum : ℚ) / (pl.length : ℚ),
   pl.length)

/-- flood_fill: early return when the start is visited or does not match;
otherwise run the BFS and reduce the component to (center_x, center_y,
area), also returning the updated visited set the Python closure mutates. -/
def flood_fill (img : Image) (target : Color) (tol : Int)
    (visited : List Pos) (s : Pos) : Option (ℚ × ℚ × Nat) × List Pos :=
  if s ∈ visited then (none, visited)
  else if ¬ matches_color target tol (img.pixel s.1 s.2) then (none, visited)
  else
    let r := bfsLoop img target tol (bfsFuel img) [s] visited []
    if r.2 = [] then (none, r.1) else (some (centroidOf r.2), r.1)

/-- Raster-order scan positions: for y in range(height): for x in
range(width). -/
def scanPositions (img : Image) : List Pos :=
  (List.range img.height).flatMap fun y =>
    (List.range img.width).map fun x : Nat => ((x : Int), (y : Int))

/-- One step of the scan: skip visited positions, otherwise flood fill and
append the component when one is found. -/
def scanStep (img : Image) (target : Color) (tol : Int)
    (st : List Pos × List (ℚ × ℚ × Nat)) (p : Pos) :
    List Pos × List (ℚ × ℚ × Nat) :=
  if p ∈ st.1 then st
  else
    match flood_fill img target tol st.1 p with
    | (none, v') => (v', st.2)
    | (some c, v') => (v', st.2 ++ [c])

/-- find_connected_components: scan the image in raster order with a fresh
visited set and collect the components found. -/
def find_connected_components (img : Image) (target : Color) (tol : Int) :
    List (ℚ × ℚ × Nat) :=
  ((scanPositions img).foldl (scanStep img target tol) ([], [])).2

/-! Checked-access model for C7: pixel reads fail outside the extent. -/

/-- Pixel access that fails outside the image extent, as the real
pixels[x, y] access would. -/
def getPixelE (img : Image) (x y : Int) : Except Unit Color :=
  if 0 ≤ x ∧ x < (img.width : Int) ∧ 0 ≤ y ∧ y < (img.height : Int) then
    Except.ok (img.pixel x y)
  else Except.error ()

/-- The BFS loop with checked pixel access: identical control flow to
bfsLoop, but every pixel read goes through getPixelE and a failed read
aborts the whole computation. -/
def bfsLoopE (img : Image) (target : Color) (tol : Int) :
    Nat → List Pos → List Pos → List Pos →
      Except Unit (List Pos × List Pos)
  | 0, _, visited, comp => Except.ok (visited, comp)
  | _ + 1, [], visited, comp => Except.ok (visited, comp)
  | fuel + 1, (x, y) :: rest, visited, comp =>
    if (x, y) ∈ visited then
      bfsLoopE img target tol fuel rest visited comp
    else if x < 0 ∨ (img.width : Int) ≤ x ∨ y < 0 ∨ (img.height : Int) ≤ y then
      bfsLoopE img target tol fuel rest visited comp
    else do
      let px ← getPixelE img x y
      if ¬ matches_color target tol px then
        bfsLoopE img target tol fuel rest visited comp
      else
        bfsLoopE img target tol fuel
          (rest ++ [(x + 1, y), (x - 1, y), (x, y + 1), (x, y - 1)])
          ((x, y) :: visited) (comp ++ [(x, y)])

/-- flood_fill with checked pixel access: the start pixel is read before
any bounds check (line 77 of the source), then the checked BFS runs. -/
def flood_fillE (img : Image) (target : Color) (tol : Int)
    (visited : List Pos) (s : Pos) :
    Except Unit (Option (ℚ × ℚ × Nat) × List Pos) :=
  if s ∈ visited then Except.ok (none, visited)
  else do
    let px ← getPixelE img s.1 s.2
    if ¬ matches_color target tol px then Except.ok (none, visited)
    else do
      let r ← bfsLoopE img target tol (bfsFuel img) [s] visited []
      if r.2 = [] then Except.ok (none, r.1)
      else Except.ok (some (centroidOf r.2), r.1)



/-! Grid quantizer, area filter and the cell records of parse_scheme. -/

/-- A raw cell as appended by parse_scheme before normalization. -/
structure RawCell where
  grid_x : Int
  grid_y : Int
  pixel_x : Int
  pixel_y : Int
  area : Nat
deriving DecidableEq, Repr

/-- Python's int() applied to the (exactly modelled) float quotient:
truncation toward zero. -/
def pyInt (q : ℚ) : Int := if 0 ≤ q then ⌊q⌋ else ⌈q⌉

/-- The area filter of parse_scheme: keep components with area >= min_area. -/
def keptComponents (comps : List (ℚ × ℚ × Nat)) (min_area : Nat) :
    List (ℚ × ℚ × Nat) :=
  comps.filter fun c => decide (min_area ≤ c.2.2)

/-- Conversion of a kept component to a raw cell record: grid coordinates
are int(center / cell_size), the stored pixel centroid is int(center). -/
def mkRawCell (cell_size : Int) (c : ℚ × ℚ × Nat) : RawCell :=
  { grid_x := pyInt (c.1 / (cell_size : ℚ))
    grid_y := pyInt (c.2.1 / (cell_size : ℚ))
    pixel_x := pyInt c.1
    pixel_y := pyInt c.2.1
    area := c.2.2 }

/-- The per-class cell list built by parse_scheme from the components of
one color: filter by min_area, then convert. -/
def buildCells (comps : List (ℚ × ℚ × Nat)) (cell_size : Int)
    (min_area : Nat) : List RawCell :=
  (keptComponents comps min_area).map (mkRawCell cell_size)

/-! Coordinate normalizer. -/

/-- A cell record after normalize_coordinates. -/
structure NormCell where
  grid_x : Int
  grid_y : Int
  original_grid_x : Int
  original_grid_y : Int
  pixel_x : Int
  pixel_y : Int
  area : Nat
deriving DecidableEq, Repr

/-- All occupied raw grid-X values across all classes (the all_x set,
collected over the cells dict in class order). -/
def allX (cells : CellType → List RawCell) : List Int :=
  classOrder.flatMap fun t => (cells t).map fun c => c.grid_x

/-- All occupied raw grid-Y values across all classes. -/
def allY (cells : CellType → List RawCell) : List Int :=
  classOrder.flatMap fun t => (cells t).map fun c => c.grid_y

/-- sorted(set(all_x)): the distinct occupied X values in increasing order. -/
def sortedX (cells : CellType → List RawCell) : List Int :=
  (allX cells).toFinset.sort (· ≤ ·)

/-- sorted(set(all_y)): the distinct occupied Y values in increasing order. -/
def sortedY (cells : CellType → List RawCell) : List Int :=
  (allY cells).toFinset.sort (· ≤ ·)

/-- normalize_coordinates: build the rank map of each axis and re-index
every cell, keeping the original coordinates and the other fields.  The
print statements of the source evaluate min(sorted_x) and min(sorted_y),
which raises ValueError when no cell of any class was detected; that
failure is the Except.error case. -/
def normalize_coordinates (cells : CellType → List RawCell) :
    Except String (CellType → List NormCell) :=
  if sortedX cells = [] then Except.error "min() arg is an empty sequence"
  else if sortedY cells = [] then Except.error "min() arg is an empty sequence"
  else Except.ok fun t => (cells t).map fun c =>
    { grid_x := ((sortedX cells).indexOf c.grid_x : Int)
      grid_y := ((sortedY cells).indexOf c.grid_y : Int)
      original_grid_x := c.grid_x
      original_grid_y := c.grid_y
      pixel_x := c.pixel_x
      pixel_y := c.pixel_y
      area := c.area }

/-! Run output. -/

structure GridSize where
  width : Int
  height : Int
deriving DecidableEq, Repr

structure Metadata where
  image_width : Nat
  image_height : Nat
  cell_size : Int
  total_cells : Nat
  grid_size : GridSize
deriving DecidableEq, Repr

/-- The structured output record written as JSON by parse_scheme. -/
structure Output where
  metadata : Metadata
  cells : CellType → List NormCell
  positions_by_type : CellType → List String

/-- parse_scheme: detect components per class (in COLORS order, each class
with a fresh visited set), filter by min_area and quantize to the grid,
normalize coordinates, compute the grid bounds, and assemble the output
record.  The image is assumed already converted to RGB (the source
converts non-RGB modes first); file writing is outside the model. -/
def parse_scheme (img : Image) (cell_size : Int) (min_area : Nat) :
    Except String Output := do
  let rawCells : CellType → List RawCell := fun t =>
    buildCells (find_connected_components img (COLORS t) COLOR_TOLERANCE)
      cell_size min_area
  let cells ← normalize_coordinates rawCells
  let total := (classOrder.map fun t => (cells t).length).sum
  let ax := classOrder.flatMap fun t => (cells t).map fun c => c.grid_x
  let ay := classOrder.flatMap fun t => (cells t).map fun c => c.grid_y
  let grid_width : Int :=
    match ax.max?, ax.min? with
    | some hi, some lo => hi - lo + 1
    | _, _ => 0
  let grid_height : Int :=
    match ay.max?, ay.min? with
    | some hi, some lo => hi - lo + 1
    | _, _ => 0
  Except.ok
    { metadata :=
        { image_width := img.width
          image_height := img.height
          cell_size := cell_size
          total_cells := total
          grid_size := { width := grid_width, height := grid_height } }
      cells := cells
      positions_by_type := fun t =>
        (cells t).map fun p => toString p.grid_x ++ "," ++ toString p.grid_y }


/-! Concrete fixtures used by witnesses and counterexamples. -/

/-- Concrete image used by several witnesses: a single pixel of the exact
AZ reference red. -/
def imgRed1 : Image := ⟨1, 1, fun _ _ => COLORS AZ⟩



/-! Relational notions used to state blob-structure facts. -/

/-- A coordinate is inside the image and its pixel matches the target. -/
def goodPix (img : Image) (target : Color) (tol : Int) (p : Pos) : Prop :=
  inBounds img p ∧ matches_color target tol (img.pixel p.1 p.2) = true

/-- 4-neighbor adjacency, in the enqueue order of the fill. -/
def adj4 (a b : Pos) : Prop :=
  b = (a.1 + 1, a.2) ∨ b = (a.1 - 1, a.2) ∨ b = (a.1, a.2 + 1) ∨ b = (a.1, a.2 - 1)

/-- Diagonal (corner-only) adjacency. -/
def diagAdj (a b : Pos) : Prop :=
  (b.1 = a.1 + 1 ∨ b.1 = a.1 - 1) ∧ (b.2 = a.2 + 1 ∨ b.2 = a.2 - 1)

/-- One step of blob connectivity: move to a 4-neighbor that is in bounds
and matches the target color. -/
def fillStep (img : Image) (target : Color) (tol : Int) (a b : Pos) : Prop :=
  goodPix img target tol b ∧ adj4 a b

/-- Connectivity through matching pixels: the reflexive-transitive closure
of fillStep. -/
def Reach (img : Image) (target : Color) (tol : Int) : Pos → Pos → Prop :=
  Relation.ReflTransGen (fillStep img target tol)

/-- Concrete 1x1 image with a single black pixel: no class matches, so no
cell of any class is detected. -/
def imgBlack : Image := ⟨1, 1, fun _ _ => [0, 0, 0]⟩

/-- Concrete 2x2 image whose only AZ-red pixels are the two corners of the
main diagonal: they touch only corner-to-corner. -/
def imgDiag : Image :=
  ⟨2, 2, fun x y =>
    if (x = 0 ∧ y = 0) ∨ (x = 1 ∧ y = 1) then COLORS AZ else [0, 0, 0]⟩

/-- Concrete 2x1 image, both pixels the exact AZ reference red: one blob
of area 2 whose centroid x is 1/2, not an integer. -/
def imgRed2 : Image := ⟨2, 1, fun _ _ => COLORS AZ⟩

/-- Projection of the per-class cell lists out of a run result. -/
def getCells (e : Except String Output) (t : CellType) : List NormCell :=
  match e with
  | Except.ok o => o.cells t
  | Except.error _ => []

/-- A raw-cell collection whose occupied X values are 2, 5, 9, used to
witness the normalization claims. -/
def cellsDemo : CellType → List RawCell := fun t =>
  match t with
  | AZ => [⟨2, 0, 60, 10, 120⟩, ⟨5, 1, 140, 36, 110⟩]
  | TK => [⟨9, 0, 240, 12, 130⟩]
  | _ => []

/-- A raw-cell collection whose grid values are already dense (equal to
their ranks) on both axes. -/
def cellsDense : CellType → List RawCell := fun t =>
  match t with
  | AZ => [⟨0, 0, 10, 10, 120⟩, ⟨1, 1, 36, 36, 110⟩]
  | _ => []

/-- Concrete component list with areas 99 and 100 on either side of the
default min_area = 100. -/
def compsDemo : List (ℚ × ℚ × Nat) := [(13, 13, 99), (40, 13, 100)]

/-! Theorems. -/

theorem mem_classOrder (t : CellType) : t ∈ classOrder := by
  cases t <;> decide

theorem classOrder_nodup : classOrder.Nodup := by decide

/-- find? on a duplicate-free list returns a iff a is a member satisfying
the predicate and every earlier member fails it. -/
theorem find?_eq_some_iff_nodup {α : Type} [DecidableEq α] (f : α → Bool)
    (l : List α) (hl : l.Nodup) (a : α) :
    l.find? f = some a ↔
      a ∈ l ∧ f a = true ∧
        ∀ b ∈ l, l.indexOf b < l.indexOf a → f b = false := by
  induction l with
  | nil => simp
  | cons x xs ih =>
    rcases List.nodup_cons.mp hl with ⟨hx, hxs⟩
    by_cases hfx : f x = true
    · rw [List.find?_cons_of_pos _ hfx]
      constructor
      · rintro h
        injection h with h
        subst h
        refine ⟨List.mem_cons_self _ _, hfx, ?_⟩
        intro b hb hlt
        rw [List.indexOf_cons_self] at hlt
        omega
      · rintro ⟨ha, hfa, hmin⟩
        rcases List.mem_cons.mp ha with rfl | ha'
        · rfl
        · exfalso
          have hne : x ≠ a := fun h => hx (h ▸ ha')
          have hxa : (x :: xs).indexOf x < (x :: xs).indexOf a := by
            rw [List.indexOf_cons_self, List.indexOf_cons_ne _ hne]
            exact Nat.succ_pos _
          have := hmin x (List.mem_cons_self _ _) hxa
          rw [hfx] at this
          cases this
    · rw [List.find?_cons_of_neg _ hfx]
      have hfx' : f x = false := Bool.eq_false_iff.mpr hfx
      rw [ih hxs]
      constructor
      · rintro ⟨ha, hfa, hmin⟩
        have hne : x ≠ a := fun h => hfx (h ▸ hfa)
        refine ⟨List.mem_cons_of_mem _ ha, hfa, ?_⟩
        intro b hb hlt
        rcases List.mem_cons.mp hb with rfl | hb'
        · exact hfx'
        · have hnb : x ≠ b := fun h => hx (h ▸ hb')
          rw [List.indexOf_cons_ne _ hnb, List.indexOf_cons_ne _ hne] at hlt
          exact hmin b hb' (by omega)
      · rintro ⟨ha, hfa, hmin⟩
        have hne : x ≠ a := fun h => hfx (h ▸ hfa)
        rcases List.mem_cons.mp ha with rfl | ha'
        · exact absurd rfl hne
        refine ⟨ha', hfa, ?_⟩
        intro b hb hlt
        have hnb : x ≠ b := fun h => hx (h ▸ hb)
        apply hmin b (List.mem_cons_of_mem _ hb)
        rw [List.indexOf_cons_ne _ hnb, List.indexOf_cons_ne _ hne]
        omega

theorem classIdx_inj {t t' : CellType} (h : classIdx t = classIdx t') : t = t' := by
  revert h
  cases t <;> cases t' <;> decide

/-- C4: identify_color strips the alpha channel and tests the classes in
the fixed order AZ, TK, RR, AR, LAR, USP; it returns the first class whose
reference color is within tolerance 25 (strict Euclidean comparison,
stated via the equivalent squared form), returns none when no reference
color is within tolerance, and in particular assigns the unique matching
class to any pixel that matches exactly one class. -/
theorem identify_color_spec (p : Color) :
    ((∀ t, identify_color p = some t ↔
        colorWithinTol (COLORS t) COLOR_TOLERANCE (stripAlpha p) = true ∧
          ∀ t', classIdx t' < classIdx t →
            colorWithinTol (COLORS t') COLOR_TOLERANCE (stripAlpha p) = false)
      ∧ (identify_color p = none ↔
          ∀ t, colorWithinTol (COLORS t) COLOR_TOLERANCE (stripAlpha p) = false))
    ∧ ∀ t, colorWithinTol (COLORS t) COLOR_TOLERANCE (stripAlpha p) = true →
        (∀ t', t' ≠ t →
          colorWithinTol (COLORS t') COLOR_TOLERANCE (stripAlpha p) = false) →
        identify_color p = some t := by
  have hsome : ∀ t, identify_color p = some t ↔
      colorWithinTol (COLORS t) COLOR_TOLERANCE (stripAlpha p) = true ∧
        ∀ t', classIdx t' < classIdx t →
          colorWithinTol (COLORS t') COLOR_TOLERANCE (stripAlpha p) = false := by
    intro t
    rw [identify_color, find?_eq_some_iff_nodup _ _ classOrder_nodup]
    constructor
    · rintro ⟨_, hf, hmin⟩
      exact ⟨hf, fun t' hlt => hmin t' (mem_classOrder t') hlt⟩
    · rintro ⟨hf, hmin⟩
      exact ⟨mem_classOrder t, hf, fun b _ hlt => hmin b hlt⟩
  refine ⟨⟨hsome, ?_⟩, ?_⟩
  · rw [identify_color, List.find?_eq_none]
    constructor
    · intro h t
      exact Bool.eq_false_iff.mpr (h t (mem_classOrder t))
    · intro h t _
      rw [h t]
      exact Bool.false_ne_true
  · intro t ht hother
    refine (hsome t).mpr ⟨ht, fun t' hlt => ?_⟩
    refine hother t' (fun he => ?_)
    rw [he] at hlt
    omega

/-- Witness for C4 at a concrete pixel: the exact AZ reference color is
within tolerance of AZ, outside tolerance of every other class, and is
classified as AZ. -/
theorem identify_color_spec_witness :
    colorWithinTol (COLORS AZ) COLOR_TOLERANCE (stripAlpha (COLORS AZ)) = true
    ∧ identify_color (COLORS AZ) = some AZ :=
  ⟨by decide, (identify_color_spec (COLORS AZ)).2 AZ (by decide) (by decide)⟩

/-- Bind of a successful Except computation reduces to the continuation. -/
theorem except_ok_bind {e a b : Type} (x : a) (f : a → Except e b) :
    (Except.ok x : Except e a) >>= f = f x := rfl

/-- C7: every coordinate dequeued by the BFS is bounds-checked before its
pixel is read, so the checked-access BFS never fails, for any fuel, queue,
visited set and component; and a flood fill started on an in-bounds
coordinate never performs an out-of-bounds read either. -/
theorem flood_fill_no_oob_access (img : Image) (target : Color) (tol : Int) :
    (∀ (fuel : Nat) (queue visited comp : List Pos),
      bfsLoopE img target tol fuel queue visited comp =
        Except.ok (bfsLoop img target tol fuel queue visited comp))
    ∧ ∀ (visited : List Pos) (s : Pos), inBounds img s →
        flood_fillE img target tol visited s =
          Except.ok (flood_fill img target tol visited s) := by
  have hloop : ∀ (fuel : Nat) (queue visited comp : List Pos),
      bfsLoopE img target tol fuel queue visited comp =
        Except.ok (bfsLoop img target tol fuel queue visited comp) := by
    intro fuel
    induction fuel with
    | zero => intro queue visited comp; rfl
    | succ n ih =>
      rintro (_ | ⟨⟨x, y⟩, rest⟩) visited comp
      · rfl
      · simp only [bfsLoop, bfsLoopE]
        split
        · exact ih rest visited comp
        · split
          · exact ih rest visited comp
          · rename_i hoob
            have hok : getPixelE img x y = Except.ok (img.pixel x y) := by
              rw [getPixelE, if_pos]
              omega
            rw [hok]
            simp only [except_ok_bind]
            split
            · exact ih rest visited comp
            · exact ih _ _ _
  refine ⟨hloop, fun visited s hs => ?_⟩
  rw [flood_fill, flood_fillE]
  split
  · rfl
  · have hok : getPixelE img s.1 s.2 = Except.ok (img.pixel s.1 s.2) := by
      rw [getPixelE, if_pos]
      exact hs
    rw [hok]
    simp only [except_ok_bind]
    split
    · rfl
    · rw [hloop]
      simp only [except_ok_bind]
      split <;> rfl


/-- Witness for C7 at a concrete in-bounds start on a concrete image. -/
theorem flood_fill_no_oob_access_witness :
    inBounds imgRed1 ((0 : Int), (0 : Int))
    ∧ flood_fillE imgRed1 (COLORS AZ) COLOR_TOLERANCE [] (0, 0) =
        Except.ok (flood_fill imgRed1 (COLORS AZ) COLOR_TOLERANCE [] (0, 0)) :=
  ⟨by decide,
    (flood_fill_no_oob_access imgRed1 (COLORS AZ) COLOR_TOLERANCE).2 [] (0, 0) (by decide)⟩

/-- C1 (code bug): when no cells of any class are detected (here: a black
image matching no reference color) every per-class cell list is empty, and
parse_scheme does not complete with zero grid dimensions: it aborts inside
normalize_coordinates, whose statistics print evaluates min() over the
empty sorted coordinate list and raises ValueError, before the
zero-dimension guard of the grid-bounds computation can run. -/
theorem parse_scheme_empty_raises :
    (∀ t, buildCells
        (find_connected_components imgBlack (COLORS t) COLOR_TOLERANCE) 26 100 = [])
    ∧ parse_scheme imgBlack 26 100 =
        Except.error "min() arg is an empty sequence" := by
  constructor
  · intro t
    cases t <;> with_unfolding_all rfl
  · with_unfolding_all rfl

/-- C6: the minimum-area filter of parse_scheme is boundary inclusive: for
every component list, pitch and min_area >= 1, a detected blob of area
min_area - 1 is excluded by the filter, and one of area exactly min_area
is kept and contributes its cell record to the collection. -/
theorem min_area_boundary (comps : List (ℚ × ℚ × Nat)) (cs : Int) (m : Nat)
    (hm : 1 ≤ m) :
    (∀ c ∈ comps, c.2.2 = m - 1 → c ∉ keptComponents comps m)
    ∧ ∀ c ∈ comps, c.2.2 = m →
        c ∈ keptComponents comps m ∧ mkRawCell cs c ∈ buildCells comps cs m := by
  constructor
  · rintro c hc harea hmem
    rw [keptComponents, List.mem_filter] at hmem
    have := of_decide_eq_true hmem.2
    omega
  · rintro c hc harea
    have hkept : c ∈ keptComponents comps m := by
      rw [keptComponents, List.mem_filter]
      exact ⟨hc, decide_eq_true (by omega)⟩
    exact ⟨hkept, List.mem_map_of_mem _ hkept⟩

/-- Witness for C6 at min_area = 100: the area-99 component is excluded,
the area-100 component is included. -/
theorem min_area_boundary_witness :
    1 ≤ 100
    ∧ ((13, 13, 99) : ℚ × ℚ × Nat) ∉ keptComponents compsDemo 100
    ∧ ((40, 13, 100) : ℚ × ℚ × Nat) ∈ keptComponents compsDemo 100 :=
  ⟨by omega,
    (min_area_boundary compsDemo 26 100 (by omega)).1 _
      (List.mem_cons_self _ _) rfl,
    ((min_area_boundary compsDemo 26 100 (by omega)).2 _
      (List.mem_cons_of_mem _ (List.mem_cons_self _ _)) rfl).1⟩

/-- C9: determinism: two runs of parse_scheme on byte-identical input with
the same pitch and min_area produce identical structured output.  The
embedding fixes the class enumeration order (as Python's
insertion-ordered dicts do), every set it builds is either only
membership-tested or sorted before iteration, and the pipeline is a pure
function of the image and the parameters. -/
theorem parse_scheme_deterministic (img1 img2 : Image) (cs : Int) (m : Nat)
    (h : img1 = img2) :
    parse_scheme img1 cs m = parse_scheme img2 cs m := by rw [h]

/-- Witness for C9 on a concrete image. -/
theorem parse_scheme_deterministic_witness :
    imgRed2 = imgRed2
    ∧ parse_scheme imgRed2 26 1 = parse_scheme imgRed2 26 1 :=
  ⟨rfl, parse_scheme_deterministic imgRed2 imgRed2 26 1 rfl⟩

/-- C10: normalization modifies only the grid coordinates: on every
collection with at least one occupied coordinate it succeeds and returns,
per class, a list of the same length in the same order, in which every
cell keeps its pixel centroid and area and records its input grid
coordinates as the original grid coordinates. -/
theorem normalize_frame (cells : CellType → List RawCell)
    (hx : sortedX cells ≠ []) (hy : sortedY cells ≠ []) :
    ∃ ncl, normalize_coordinates cells = Except.ok ncl ∧
      ∀ t, (ncl t).length = (cells t).length ∧
        ∀ i (hi : i < (ncl t).length) (hi' : i < (cells t).length),
          ((ncl t).get ⟨i, hi⟩).pixel_x = ((cells t).get ⟨i, hi'⟩).pixel_x
          ∧ ((ncl t).get ⟨i, hi⟩).pixel_y = ((cells t).get ⟨i, hi'⟩).pixel_y
          ∧ ((ncl t).get ⟨i, hi⟩).area = ((cells t).get ⟨i, hi'⟩).area
          ∧ ((ncl t).get ⟨i, hi⟩).original_grid_x = ((cells t).get ⟨i, hi'⟩).grid_x
          ∧ ((ncl t).get ⟨i, hi⟩).original_grid_y = ((cells t).get ⟨i, hi'⟩).grid_y := by
  refine ⟨_, by rw [normalize_coordinates, if_neg hx, if_neg hy], ?_⟩
  intro t
  refine ⟨List.length_map _ _, ?_⟩
  intro i hi hi'
  simp only [List.get_eq_getElem, List.getElem_map]
  exact ⟨trivial, trivial, trivial, trivial, trivial⟩

/-- Witness for C10 on a concrete collection. -/
theorem normalize_frame_witness :
    sortedX cellsDemo ≠ [] ∧ sortedY cellsDemo ≠ []
    ∧ ∃ ncl, normalize_coordinates cellsDemo = Except.ok ncl ∧
      ∀ t, (ncl t).length = (cellsDemo t).length ∧
        ∀ i (hi : i < (ncl t).length) (hi' : i < (cellsDemo t).length),
          ((ncl t).get ⟨i, hi⟩).pixel_x = ((cellsDemo t).get ⟨i, hi'⟩).pixel_x
          ∧ ((ncl t).get ⟨i, hi⟩).pixel_y = ((cellsDemo t).get ⟨i, hi'⟩).pixel_y
          ∧ ((ncl t).get ⟨i, hi⟩).area = ((cellsDemo t).get ⟨i, hi'⟩).area
          ∧ ((ncl t).get ⟨i, hi⟩).original_grid_x = ((cellsDemo t).get ⟨i, hi'⟩).grid_x
          ∧ ((ncl t).get ⟨i, hi⟩).original_grid_y = ((cellsDemo t).get ⟨i, hi'⟩).grid_y :=
  ⟨by with_unfolding_all decide, by with_unfolding_all decide,
    normalize_frame cellsDemo (by with_unfolding_all decide)
      (by with_unfolding_all decide)⟩

/-- On a sorted duplicate-free list, indexOf is strictly monotone. -/
theorem indexOf_strictMono_of_sorted {l : List Int}
    (hs : l.Sorted (· ≤ ·)) {u v : Int}
    (hu : u ∈ l) (hv : v ∈ l) (huv : u < v) :
    l.indexOf u < l.indexOf v := by
  have hiu : l.indexOf u < l.length := List.indexOf_lt_length.mpr hu
  have hiv : l.indexOf v < l.length := List.indexOf_lt_length.mpr hv
  by_contra h
  push_neg at h
  rcases Nat.eq_or_lt_of_le h with heq | hlt
  · have h1 := List.indexOf_get hiu
    have h2 := List.indexOf_get hiv
    have : u = v := by
      rw [← h1, ← h2]
      congr 1
      exact Fin.ext heq.symm
    omega
  · have hle : l.get ⟨l.indexOf v, hiv⟩ ≤ l.get ⟨l.indexOf u, hiu⟩ :=
      hs.rel_get_of_lt hlt
    rw [List.indexOf_get hiu, List.indexOf_get hiv] at hle
    omega

theorem mem_sortedX (cells : CellType → List RawCell) (u : Int) :
    u ∈ sortedX cells ↔ u ∈ allX cells := by
  rw [sortedX, Finset.mem_sort, List.mem_toFinset]

theorem mem_sortedY (cells : CellType → List RawCell) (u : Int) :
    u ∈ sortedY cells ↔ u ∈ allY cells := by
  rw [sortedY, Finset.mem_sort, List.mem_toFinset]

theorem grid_x_mem_allX {cells : CellType → List RawCell} {t : CellType}
    {c : RawCell} (hc : c ∈ cells t) : c.grid_x ∈ allX cells := by
  rw [allX, List.mem_flatMap]
  exact ⟨t, mem_classOrder t, List.mem_map_of_mem _ hc⟩

theorem grid_y_mem_allY {cells : CellType → List RawCell} {t : CellType}
    {c : RawCell} (hc : c ∈ cells t) : c.grid_y ∈ allY cells := by
  rw [allY, List.mem_flatMap]
  exact ⟨t, mem_classOrder t, List.mem_map_of_mem _ hc⟩

/-- Strictly-monotone-into-and-onto facts for an occupied coordinate
axis: the rank map on the sorted distinct occupied values. -/
theorem rank_facts {l : List Int} (hs : l.Sorted (· ≤ ·)) (hn : l.Nodup) :
    (∀ u ∈ l, ∀ v ∈ l, u < v → l.indexOf u < l.indexOf v)
    ∧ (∀ u ∈ l, l.indexOf u < l.length)
    ∧ ∀ r, r < l.length → ∃ u ∈ l, l.indexOf u = r := by
  refine ⟨fun u hu v hv huv => indexOf_strictMono_of_sorted hs hu hv huv,
    fun u hu => List.indexOf_lt_length.mpr hu, fun r hr => ?_⟩
  exact ⟨l.get ⟨r, hr⟩, List.get_mem l r hr, List.get_indexOf hn ⟨r, hr⟩⟩

/-- C3: for every non-empty cell collection, normalization is a strict
order-preserving bijection on each axis from the occupied raw grid values
onto the ranks 0..count-1 (strictly monotone, into and onto the range),
and when every occupied value already equals its rank (dense collection),
normalization leaves every cell's grid coordinates unchanged. -/
theorem normalization_bijection (cells : CellType → List RawCell)
    (hx : sortedX cells ≠ []) (hy : sortedY cells ≠ []) :
    (∀ u ∈ allX cells, ∀ v ∈ allX cells, u < v →
        (sortedX cells).indexOf u < (sortedX cells).indexOf v)
    ∧ (∀ u ∈ allX cells, (sortedX cells).indexOf u < (sortedX cells).length)
    ∧ (∀ r, r < (sortedX cells).length →
        ∃ u ∈ allX cells, (sortedX cells).indexOf u = r)
    ∧ (∀ u ∈ allY cells, ∀ v ∈ allY cells, u < v →
        (sortedY cells).indexOf u < (sortedY cells).indexOf v)
    ∧ (∀ u ∈ allY cells, (sortedY cells).indexOf u < (sortedY cells).length)
    ∧ (∀ r, r < (sortedY cells).length →
        ∃ u ∈ allY cells, (sortedY cells).indexOf u = r)
    ∧ ((∀ u ∈ allX cells, ((sortedX cells).indexOf u : Int) = u) →
       (∀ u ∈ allY cells, ((sortedY cells).indexOf u : Int) = u) →
       ∃ ncl, normalize_coordinates cells = Except.ok ncl ∧
         ∀ t, (ncl t).map (fun c => (c.grid_x, c.grid_y))
            = (cells t).map (fun c => (c.grid_x, c.grid_y))) := by
  have hxs : (sortedX cells).Sorted (· ≤ ·) := Finset.sort_sorted _ _
  have hxn : (sortedX cells).Nodup := Finset.sort_nodup _ _
  have hys : (sortedY cells).Sorted (· ≤ ·) := Finset.sort_sorted _ _
  have hyn : (sortedY cells).Nodup := Finset.sort_nodup _ _
  obtain ⟨hxmono, hxinto, hxonto⟩ := rank_facts hxs hxn
  obtain ⟨hymono, hyinto, hyonto⟩ := rank_facts hys hyn
  refine ⟨?_, ?_, ?_, ?_, ?_, ?_, ?_⟩
  · intro u hu v hv huv
    exact hxmono u ((mem_sortedX cells u).mpr hu) v ((mem_sortedX cells v).mpr hv) huv
  · intro u hu
    exact hxinto u ((mem_sortedX cells u).mpr hu)
  · intro r hr
    obtain ⟨u, hu, hru⟩ := hxonto r hr
    exact ⟨u, (mem_sortedX cells u).mp hu, hru⟩
  · intro u hu v hv huv
    exact hymono u ((mem_sortedY cells u).mpr hu) v ((mem_sortedY cells v).mpr hv) huv
  · intro u hu
    exact hyinto u ((mem_sortedY cells u).mpr hu)
  · intro r hr
    obtain ⟨u, hu, hru⟩ := hyonto r hr
    exact ⟨u, (mem_sortedY cells u).mp hu, hru⟩
  · intro hdx hdy
    refine ⟨_, by rw [normalize_coordinates, if_neg hx, if_neg hy], ?_⟩
    intro t
    rw [List.map_map]
    refine List.map_congr_left fun c hc => ?_
    have h1 : ((sortedX cells).indexOf c.grid_x : Int) = c.grid_x :=
      hdx c.grid_x (grid_x_mem_allX hc)
    have h2 : ((sortedY cells).indexOf c.grid_y : Int) = c.grid_y :=
      hdy c.grid_y (grid_y_mem_allY hc)
    simp only [Function.comp]
    exact Prod.ext h1 h2

/-- Witness for C3: the collection with occupied X values 2, 5, 9 maps
them to ranks 0, 1, 2 and satisfies strict monotonicity; the dense
collection is left unchanged by normalization. -/
theorem normalization_bijection_witness :
    sortedX cellsDemo ≠ []
    ∧ sortedY cellsDemo ≠ []
    ∧ ((sortedX cellsDemo).indexOf 2 = 0 ∧ (sortedX cellsDemo).indexOf 5 = 1
        ∧ (sortedX cellsDemo).indexOf 9 = 2)
    ∧ (∀ u ∈ allX cellsDemo, ∀ v ∈ allX cellsDemo, u < v →
        (sortedX cellsDemo).indexOf u < (sortedX cellsDemo).indexOf v)
    ∧ ∃ ncl, normalize_coordinates cellsDense = Except.ok ncl ∧
        ∀ t, (ncl t).map (fun c => (c.grid_x, c.grid_y))
            = (cellsDense t).map (fun c => (c.grid_x, c.grid_y)) :=
  ⟨by with_unfolding_all decide, by with_unfolding_all decide,
    by with_unfolding_all decide,
    (normalization_bijection cellsDemo (by with_unfolding_all decide)
      (by with_unfolding_all decide)).1,
    (normalization_bijection cellsDense (by with_unfolding_all decide)
      (by with_unfolding_all decide)).2.2.2.2.2.2
      (by with_unfolding_all decide) (by with_unfolding_all decide)⟩

/-! Invariants of the BFS loop. -/

theorem bfsLoop_comp_extend (img : Image) (target : Color) (tol : Int) :
    ∀ (fuel : Nat) (q v c : List Pos),
      ∃ tl, (bfsLoop img target tol fuel q v c).2 = c ++ tl := by
  intro fuel
  induction fuel with
  | zero =>
    intro q v c
    exact ⟨[], (List.append_nil c).symm⟩
  | succ n ih =>
    rintro (_ | ⟨⟨x, y⟩, rest⟩) v c
    · exact ⟨[], (List.append_nil c).symm⟩
    · simp only [bfsLoop]
      by_cases h1 : (x, y) ∈ v
      · rw [if_pos h1]
        exact ih rest v c
      rw [if_neg h1]
      by_cases h2 : x < 0 ∨ (img.width : Int) ≤ x ∨ y < 0 ∨ (img.height : Int) ≤ y
      · rw [if_pos h2]
        exact ih rest v c
      rw [if_neg h2]
      by_cases h3 : ¬ matches_color target tol (img.pixel x y) = true
      · rw [if_pos h3]
        exact ih rest v c
      rw [if_neg h3]
      obtain ⟨tl, htl⟩ := ih
        (rest ++ [(x + 1, y), (x - 1, y), (x, y + 1), (x, y - 1)])
        ((x, y) :: v) (c ++ [(x, y)])
      refine ⟨(x, y) :: tl, ?_⟩
      rw [htl, List.append_assoc]
      rfl

theorem bfsLoop_mem_comp (img : Image) (target : Color) (tol : Int)
    (fuel : Nat) (q v c : List Pos) {p : Pos} (hp : p ∈ c) :
    p ∈ (bfsLoop img target tol fuel q v c).2 := by
  obtain ⟨tl, htl⟩ := bfsLoop_comp_extend img target tol fuel q v c
  rw [htl]
  exact List.mem_append_left _ hp

theorem bfsLoop_sound (img : Image) (target : Color) (tol : Int) (s : Pos) :
    ∀ (fuel : Nat) (q v c : List Pos),
      (∀ p ∈ q, goodPix img target tol p → Reach img target tol s p) →
      (∀ p ∈ c, Reach img target tol s p) →
      ∀ p ∈ (bfsLoop img target tol fuel q v c).2, Reach img target tol s p := by
  intro fuel
  induction fuel with
  | zero =>
    intro q v c _ hc
    exact hc
  | succ n ih =>
    rintro (_ | ⟨⟨x, y⟩, rest⟩) v c hq hc
    · exact hc
    · simp only [bfsLoop]
      by_cases h1 : (x, y) ∈ v
      · rw [if_pos h1]
        exact ih rest v c (fun p hp => hq p (List.mem_cons_of_mem _ hp)) hc
      rw [if_neg h1]
      by_cases h2 : x < 0 ∨ (img.width : Int) ≤ x ∨ y < 0 ∨ (img.height : Int) ≤ y
      · rw [if_pos h2]
        exact ih rest v c (fun p hp => hq p (List.mem_cons_of_mem _ hp)) hc
      rw [if_neg h2]
      by_cases h3 : ¬ matches_color target tol (img.pixel x y) = true
      · rw [if_pos h3]
        exact ih rest v c (fun p hp => hq p (List.mem_cons_of_mem _ hp)) hc
      rw [if_neg h3]
      have hgood : goodPix img target tol (x, y) := by
        refine ⟨?_, not_not.mp h3⟩
        simp only [inBounds]
        omega
      have hs' : Reach img target tol s (x, y) :=
        hq _ (List.mem_cons_self _ _) hgood
      apply ih
      · intro p hp hgp
        rcases List.mem_append.mp hp with hp | hp
        · exact hq p (List.mem_cons_of_mem _ hp) hgp
        · have hp4 : p = (x + 1, y) ∨ p = (x - 1, y) ∨ p = (x, y + 1) ∨ p = (x, y - 1) := by
            simpa using hp
          have hadj : adj4 (x, y) p := by
            simp only [adj4]
            exact hp4
          exact hs'.tail ⟨hgp, hadj⟩
      · intro p hp
        rcases List.mem_append.mp hp with hp | hp
        · exact hc p hp
        · have hp1 : p = (x, y) := by simpa using hp
          rw [hp1]
          exact hs'

theorem bfsLoop_comp_inBounds (img : Image) (target : Color) (tol : Int) :
    ∀ (fuel : Nat) (q v c : List Pos), (∀ p ∈ c, inBounds img p) →
      ∀ p ∈ (bfsLoop img target tol fuel q v c).2, inBounds img p := by
  intro fuel
  induction fuel with
  | zero =>
    intro q v c hc
    exact hc
  | succ n ih =>
    rintro (_ | ⟨⟨x, y⟩, rest⟩) v c hc
    · exact hc
    · simp only [bfsLoop]
      by_cases h1 : (x, y) ∈ v
      · rw [if_pos h1]
        exact ih rest v c hc
      rw [if_neg h1]
      by_cases h2 : x < 0 ∨ (img.width : Int) ≤ x ∨ y < 0 ∨ (img.height : Int) ≤ y
      · rw [if_pos h2]
        exact ih rest v c hc
      rw [if_neg h2]
      by_cases h3 : ¬ matches_color target tol (img.pixel x y) = true
      · rw [if_pos h3]
        exact ih rest v c hc
      rw [if_neg h3]
      apply ih
      intro p hp
      rcases List.mem_append.mp hp with hp | hp
      · exact hc p hp
      · have hp1 : p = (x, y) := by simpa using hp
        rw [hp1]
        simp only [inBounds]
        omega

theorem bfsLoop_comp_nodup (img : Image) (target : Color) (tol : Int) :
    ∀ (fuel : Nat) (q v c : List Pos),
      c.Nodup → (∀ p ∈ c, p ∈ v) →
      (bfsLoop img target tol fuel q v c).2.Nodup := by
  intro fuel
  induction fuel with
  | zero =>
    intro q v c hc _
    exact hc
  | succ n ih =>
    rintro (_ | ⟨⟨x, y⟩, rest⟩) v c hc hv
    · exact hc
    · simp only [bfsLoop]
      by_cases h1 : (x, y) ∈ v
      · rw [if_pos h1]
        exact ih rest v c hc hv
      rw [if_neg h1]
      by_cases h2 : x < 0 ∨ (img.width : Int) ≤ x ∨ y < 0 ∨ (img.height : Int) ≤ y
      · rw [if_pos h2]
        exact ih rest v c hc hv
      rw [if_neg h2]
      by_cases h3 : ¬ matches_color target tol (img.pixel x y) = true
      · rw [if_pos h3]
        exact ih rest v c hc hv
      rw [if_neg h3]
      apply ih
      · rw [List.nodup_append]
        refine ⟨hc, List.nodup_singleton _, ?_⟩
        intro p hp hp'
        have hp1 : p = (x, y) := by simpa using hp'
        rw [hp1] at hp
        exact h1 (hv _ hp)
      · intro p hp
        rcases List.mem_append.mp hp with hp | hp
        · exact List.mem_cons_of_mem _ (hv p hp)
        · have hp1 : p = (x, y) := by simpa using hp
          rw [hp1]
          exact List.mem_cons_self _ _

theorem bfsLoop_visited_sub (img : Image) (target : Color) (tol : Int) :
    ∀ (fuel : Nat) (q v c : List Pos),
      ∀ a ∈ (bfsLoop img target tol fuel q v c).1,
        a ∈ v ∨ a ∈ (bfsLoop img target tol fuel q v c).2 := by
  intro fuel
  induction fuel with
  | zero =>
    intro q v c a ha
    exact Or.inl ha
  | succ n ih =>
    rintro (_ | ⟨⟨x, y⟩, rest⟩) v c a
    · exact fun ha => Or.inl ha
    · simp only [bfsLoop]
      by_cases h1 : (x, y) ∈ v
      · rw [if_pos h1]
        exact ih rest v c a
      rw [if_neg h1]
      by_cases h2 : x < 0 ∨ (img.width : Int) ≤ x ∨ y < 0 ∨ (img.height : Int) ≤ y
      · rw [if_pos h2]
        exact ih rest v c a
      rw [if_neg h2]
      by_cases h3 : ¬ matches_color target tol (img.pixel x y) = true
      · rw [if_pos h3]
        exact ih rest v c a
      rw [if_neg h3]
      intro ha
      rcases ih _ _ _ a ha with h | h
      · rcases List.mem_cons.mp h with h | h
        · refine Or.inr ?_
          apply bfsLoop_mem_comp
          rw [h]
          exact List.mem_append_right _ (List.mem_cons_self _ _)
        · exact Or.inl h
      · exact Or.inr h

theorem bfsLoop_start_mem (img : Image) (target : Color) (tol : Int)
    (n : Nat) (x y : Int) (rest v c : List Pos)
    (hnv : (x, y) ∉ v) (hin : inBounds img (x, y))
    (hm : matches_color target tol (img.pixel x y) = true) :
    (x, y) ∈ (bfsLoop img target tol (n + 1) ((x, y) :: rest) v c).2 := by
  simp only [bfsLoop]
  rw [if_neg hnv]
  rw [if_neg (by simp only [inBounds] at hin; omega :
    ¬ (x < 0 ∨ (img.width : Int) ≤ x ∨ y < 0 ∨ (img.height : Int) ≤ y))]
  rw [if_neg (not_not_intro hm)]
  apply bfsLoop_mem_comp
  exact List.mem_append_right _ (List.mem_cons_self _ _)

/-! Structure of the values flood_fill and the scan produce. -/

theorem flood_fill_some_struct (img : Image) (target : Color) (tol : Int)
    (v : List Pos) (s : Pos) (c : ℚ × ℚ × Nat) (v' : List Pos)
    (h : flood_fill img target tol v s = (some c, v')) :
    ∃ pl : List Pos, pl ≠ [] ∧ c = centroidOf pl
      ∧ (∀ p ∈ pl, inBounds img p)
      ∧ (∀ p ∈ pl, Reach img target tol s p)
      ∧ pl.Nodup
      ∧ ∀ a ∈ v', a ∈ v ∨ a ∈ pl := by
  simp only [flood_fill] at h
  by_cases h1 : s ∈ v
  · rw [if_pos h1] at h
    simp at h
  rw [if_neg h1] at h
  by_cases h2 : ¬ matches_color target tol (img.pixel s.1 s.2) = true
  · rw [if_pos h2] at h
    simp at h
  rw [if_neg h2] at h
  by_cases h3 : (bfsLoop img target tol (bfsFuel img) [s] v []).2 = []
  · rw [if_pos h3] at h
    simp at h
  rw [if_neg h3] at h
  rw [Prod.mk.injEq] at h
  obtain ⟨hc, hv'⟩ := h
  rw [Option.some.injEq] at hc
  refine ⟨(bfsLoop img target tol (bfsFuel img) [s] v []).2, h3, hc.symm,
    ?_, ?_, ?_, ?_⟩
  · exact bfsLoop_comp_inBounds img target tol (bfsFuel img) [s] v []
      (fun p hp => absurd hp (List.not_mem_nil p))
  · refine bfsLoop_sound img target tol s (bfsFuel img) [s] v [] ?_
      (fun p hp => absurd hp (List.not_mem_nil p))
    intro p hp _
    have hp1 : p = s := by simpa using hp
    rw [hp1]
    exact Relation.ReflTransGen.refl
  · exact bfsLoop_comp_nodup img target tol (bfsFuel img) [s] v []
      List.nodup_nil (fun p hp => absurd hp (List.not_mem_nil p))
  · intro a ha
    rw [← hv'] at ha
    exact bfsLoop_visited_sub img target tol (bfsFuel img) [s] v [] a ha

theorem flood_fill_no_match (img : Image) (target : Color) (tol : Int)
    (v : List Pos) (s : Pos) (hnv : s ∉ v)
    (h : matches_color target tol (img.pixel s.1 s.2) = false) :
    flood_fill img target tol v s = (none, v) := by
  rw [flood_fill, if_neg hnv, if_pos]
  rw [h]
  exact Bool.false_ne_true

theorem fcc_struct (img : Image) (target : Color) (tol : Int) :
    ∀ comp ∈ find_connected_components img target tol,
      ∃ pl : List Pos, pl ≠ [] ∧ comp = centroidOf pl
        ∧ ∀ p ∈ pl, inBounds img p := by
  have key : ∀ (L : List Pos) (st : List Pos × List (ℚ × ℚ × Nat)),
      (∀ comp ∈ st.2, ∃ pl : List Pos, pl ≠ [] ∧ comp = centroidOf pl
        ∧ ∀ p ∈ pl, inBounds img p) →
      ∀ comp ∈ (L.foldl (scanStep img target tol) st).2,
        ∃ pl : List Pos, pl ≠ [] ∧ comp = centroidOf pl
          ∧ ∀ p ∈ pl, inBounds img p := by
    intro L
    induction L with
    | nil =>
      intro st h
      exact h
    | cons p L ih =>
      intro st h
      rw [List.foldl_cons]
      apply ih
      intro c' hc'
      rw [scanStep] at hc'
      by_cases hv : p ∈ st.1
      · rw [if_pos hv] at hc'
        exact h c' hc'
      rw [if_neg hv] at hc'
      cases hff : flood_fill img target tol st.1 p with
      | mk o v2 =>
        rw [hff] at hc'
        cases o with
        | none => exact h c' hc'
        | some cc =>
          have hc'' : c' ∈ st.2 ++ [cc] := hc'
          rcases List.mem_append.mp hc'' with hold | hnew
          · exact h c' hold
          · have hc1 : c' = cc := by simpa using hnew
            obtain ⟨pl, hne, hcent, hinb, _, _, _⟩ :=
              flood_fill_some_struct img target tol st.1 p cc v2 hff
            exact ⟨pl, hne, hc1 ▸ hcent, hinb⟩
  intro comp hc
  rw [find_connected_components] at hc
  exact key (scanPositions img) ([], [])
    (fun c hc' => absurd hc' (List.not_mem_nil c)) comp hc

/-- The centroid of a component whose pixels are all in bounds is
non-negative on both axes. -/
theorem centroidOf_nonneg (img : Image) {pl : List Pos}
    (hinb : ∀ p ∈ pl, inBounds img p) :
    0 ≤ (centroidOf pl).1 ∧ 0 ≤ (centroidOf pl).2.1 := by
  constructor
  · refine div_nonneg ?_ (Nat.cast_nonneg _)
    have hs : (0 : Int) ≤ (pl.map Prod.fst).sum := by
      refine List.sum_nonneg ?_
      intro a ha
      obtain ⟨p, hp, rfl⟩ := List.mem_map.mp ha
      exact (hinb p hp).1
    exact_mod_cast hs
  · refine div_nonneg ?_ (Nat.cast_nonneg _)
    have hs : (0 : Int) ≤ (pl.map Prod.snd).sum := by
      refine List.sum_nonneg ?_
      intro a ha
      obtain ⟨p, hp, rfl⟩ := List.mem_map.mp ha
      exact (hinb p hp).2.2.1
    exact_mod_cast hs

/-- Python's int() truncation agrees with floor on non-negative input. -/
theorem pyInt_eq_floor {q : ℚ} (h : 0 ≤ q) : pyInt q = ⌊q⌋ := by
  rw [pyInt, if_pos h]

/-- C8: the grid quantizer of parse_scheme maps each kept component's
centroid, which is always non-negative, to
(int(center_x / pitch), int(center_y / pitch)), and for these
non-negative inputs and a positive pitch the truncation toward zero
coincides with the floor. -/
theorem grid_quantizer_floor (img : Image) (target : Color) (tol cs : Int)
    (m : Nat) (hcs : 0 < cs) :
    ∀ c ∈ buildCells (find_connected_components img target tol) cs m,
      ∃ comp ∈ find_connected_components img target tol,
        0 ≤ comp.1 ∧ 0 ≤ comp.2.1
        ∧ c.grid_x = pyInt (comp.1 / (cs : ℚ))
        ∧ c.grid_y = pyInt (comp.2.1 / (cs : ℚ))
        ∧ c.grid_x = ⌊comp.1 / (cs : ℚ)⌋
        ∧ c.grid_y = ⌊comp.2.1 / (cs : ℚ)⌋ := by
  intro c hc
  rw [buildCells, List.mem_map] at hc
  obtain ⟨comp, hkept, rfl⟩ := hc
  rw [keptComponents, List.mem_filter] at hkept
  obtain ⟨pl, hne, hcent, hinb⟩ := fcc_struct img target tol comp hkept.1
  have hnn : 0 ≤ comp.1 ∧ 0 ≤ comp.2.1 := by
    rw [hcent]
    exact centroidOf_nonneg img hinb
  have hcsq : (0 : ℚ) ≤ (cs : ℚ) := by exact_mod_cast le_of_lt hcs
  refine ⟨comp, hkept.1, hnn.1, hnn.2, rfl, rfl, ?_, ?_⟩
  · exact pyInt_eq_floor (div_nonneg hnn.1 hcsq)
  · exact pyInt_eq_floor (div_nonneg hnn.2 hcsq)

/-- Witness for C8 on a concrete one-pixel image with min_area 1. -/
theorem grid_quantizer_floor_witness :
    (0 : Int) < 26
    ∧ (⟨0, 0, 0, 0, 1⟩ : RawCell) ∈
        buildCells (find_connected_components imgRed1 (COLORS AZ) COLOR_TOLERANCE) 26 1
    ∧ ∃ comp ∈ find_connected_components imgRed1 (COLORS AZ) COLOR_TOLERANCE,
        0 ≤ comp.1 ∧ 0 ≤ comp.2.1
        ∧ (⟨0, 0, 0, 0, 1⟩ : RawCell).grid_x = pyInt (comp.1 / ((26 : Int) : ℚ))
        ∧ (⟨0, 0, 0, 0, 1⟩ : RawCell).grid_y = pyInt (comp.2.1 / ((26 : Int) : ℚ))
        ∧ (⟨0, 0, 0, 0, 1⟩ : RawCell).grid_x = ⌊comp.1 / ((26 : Int) : ℚ)⌋
        ∧ (⟨0, 0, 0, 0, 1⟩ : RawCell).grid_y = ⌊comp.2.1 / ((26 : Int) : ℚ)⌋ :=
  ⟨by decide, by with_unfolding_all decide,
    grid_quantizer_floor imgRed1 (COLORS AZ) COLOR_TOLERANCE 26 1 (by decide)
      ⟨0, 0, 0, 0, 1⟩ (by with_unfolding_all decide)⟩

/-- Counterexample for C2: on a 2x1 all-red image with min_area 1, the
blob detector computes the centroid mean 1/2 for x, but the stored
pixel_x of the resulting AZ cell is 0, which differs from the mean, so the
record does not retain the sub-pixel centroid. -/
theorem pixel_centroid_not_mean :
    find_connected_components imgRed2 (COLORS AZ) COLOR_TOLERANCE = [(1/2, 0, 2)]
    ∧ (getCells (parse_scheme imgRed2 26 1) AZ).map (fun c => (c.pixel_x : ℚ)) = [0]
    ∧ (0 : ℚ) ≠ 1/2 := by
  refine ⟨?_, ?_, ?_⟩ <;> with_unfolding_all decide

/-- C2 as amended: the stored pixel_x and pixel_y are int() truncations of
the blob's centroid mean (equal to its floor, the centroid being
non-negative), not the exact sub-pixel mean; the area is retained
exactly. -/
theorem pixel_centroid_truncated (img : Image) (target : Color)
    (tol cs : Int) (m : Nat) :
    ∀ c ∈ buildCells (find_connected_components img target tol) cs m,
      ∃ comp ∈ find_connected_components img target tol,
        ∃ pl : List Pos, pl ≠ [] ∧ comp = centroidOf pl
          ∧ 0 ≤ comp.1 ∧ 0 ≤ comp.2.1
          ∧ c.pixel_x = pyInt comp.1 ∧ c.pixel_y = pyInt comp.2.1
          ∧ c.pixel_x = ⌊comp.1⌋ ∧ c.pixel_y = ⌊comp.2.1⌋
          ∧ c.area = comp.2.2 := by
  intro c hc
  rw [buildCells, List.mem_map] at hc
  obtain ⟨comp, hkept, rfl⟩ := hc
  rw [keptComponents, List.mem_filter] at hkept
  obtain ⟨pl, hne, hcent, hinb⟩ := fcc_struct img target tol comp hkept.1
  have hnn : 0 ≤ comp.1 ∧ 0 ≤ comp.2.1 := by
    rw [hcent]
    exact centroidOf_nonneg img hinb
  refine ⟨comp, hkept.1, pl, hne, hcent, hnn.1, hnn.2, rfl, rfl, ?_, ?_, rfl⟩
  · exact pyInt_eq_floor hnn.1
  · exact pyInt_eq_floor hnn.2

/-- Witness for the amended C2 on the 2x1 image: the stored pixel centroid
of the single AZ cell is the truncation of the mean (1/2, 0). -/
theorem pixel_centroid_truncated_witness :
    (⟨0, 0, 0, 0, 2⟩ : RawCell) ∈
        buildCells (find_connected_components imgRed2 (COLORS AZ) COLOR_TOLERANCE) 26 1
    ∧ ∃ comp ∈ find_connected_components imgRed2 (COLORS AZ) COLOR_TOLERANCE,
        ∃ pl : List Pos, pl ≠ [] ∧ comp = centroidOf pl
          ∧ 0 ≤ comp.1 ∧ 0 ≤ comp.2.1
          ∧ (⟨0, 0, 0, 0, 2⟩ : RawCell).pixel_x = pyInt comp.1
          ∧ (⟨0, 0, 0, 0, 2⟩ : RawCell).pixel_y = pyInt comp.2.1
          ∧ (⟨0, 0, 0, 0, 2⟩ : RawCell).pixel_x = ⌊comp.1⌋
          ∧ (⟨0, 0, 0, 0, 2⟩ : RawCell).pixel_y = ⌊comp.2.1⌋
          ∧ (⟨0, 0, 0, 0, 2⟩ : RawCell).area = comp.2.2 :=
  ⟨by with_unfolding_all decide,
    pixel_centroid_truncated imgRed2 (COLORS AZ) COLOR_TOLERANCE 26 1
      ⟨0, 0, 0, 0, 2⟩ (by with_unfolding_all decide)⟩

/-! Helpers for the two-diagonal-pixel scenario. -/

theorem bfsLoop_nil (img : Image) (target : Color) (tol : Int)
    (n : Nat) (v c : List Pos) :
    bfsLoop img target tol n [] v c = (v, c) := by
  cases n <;> rfl

/-- A BFS whose only queue entry is not a good pixel marks nothing. -/
theorem bfsLoop_single_not_good (img : Image) (target : Color) (tol : Int)
    (fuel : Nat) (v c : List Pos) (s : Pos)
    (hns : ¬ goodPix img target tol s) :
    (bfsLoop img target tol fuel [s] v c).2 = c := by
  obtain ⟨x, y⟩ := s
  cases fuel with
  | zero => rfl
  | succ n =>
    simp only [bfsLoop]
    by_cases h1 : (x, y) ∈ v
    · rw [if_pos h1, bfsLoop_nil]
    rw [if_neg h1]
    by_cases h2 : x < 0 ∨ (img.width : Int) ≤ x ∨ y < 0 ∨ (img.height : Int) ≤ y
    · rw [if_pos h2, bfsLoop_nil]
    rw [if_neg h2]
    have hin : inBounds img (x, y) := by
      simp only [inBounds]
      omega
    have hm : ¬ matches_color target tol (img.pixel x y) = true :=
      fun hm => hns ⟨hin, hm⟩
    rw [if_pos hm, bfsLoop_nil]

theorem eq_singleton_of_nodup {α : Type} {l : List α} {x : α} (hn : l.Nodup)
    (hall : ∀ e ∈ l, e = x) (hx : x ∈ l) : l = [x] := by
  cases l with
  | nil => cases hx
  | cons a t =>
    have ha : a = x := hall a (List.mem_cons_self _ _)
    subst ha
    cases t with
    | nil => rfl
    | cons b t2 =>
      rw [List.nodup_cons] at hn
      have hb : b = a := hall b (List.mem_cons_of_mem _ (List.mem_cons_self _ _))
      exact absurd (hb ▸ List.mem_cons_self b t2) hn.1

theorem mem_scanPositions (img : Image) (r : Pos) :
    r ∈ scanPositions img ↔ inBounds img r := by
  obtain ⟨rx, ry⟩ := r
  simp only [scanPositions, List.mem_flatMap, List.mem_map, List.mem_range,
    inBounds, Prod.mk.injEq]
  constructor
  · rintro ⟨y, hy, x, hx, rfl, rfl⟩
    refine ⟨by omega, by omega, by omega, by omega⟩
  · rintro ⟨h1, h2, h3, h4⟩
    exact ⟨ry.toNat, by omega, rx.toNat, by omega, by omega, by omega⟩

theorem scanPositions_nodup (img : Image) : (scanPositions img).Nodup := by
  rw [scanPositions]
  rw [List.nodup_flatMap]
  constructor
  · intro y _
    refine List.Nodup.map ?_ (List.nodup_range _)
    intro x1 x2 h
    rw [Prod.mk.injEq] at h
    omega
  · refine List.Pairwise.imp ?_ (List.pairwise_lt_range img.height)
    intro y1 y2 hlt
    intro c hc1 hc2
    rw [List.mem_map] at hc1 hc2
    obtain ⟨x1, _, rfl⟩ := hc1
    obtain ⟨x2, _, h⟩ := hc2
    rw [Prod.mk.injEq] at h
    omega

/-- Folding the scan over positions whose pixels do not match leaves the
state unchanged, whatever the visited set. -/
theorem scan_fold_no_match (img : Image) (target : Color) (tol : Int) :
    ∀ (L : List Pos) (st : List Pos × List (ℚ × ℚ × Nat)),
      (∀ r ∈ L, matches_color target tol (img.pixel r.1 r.2) = false) →
      L.foldl (scanStep img target tol) st = st := by
  intro L
  induction L with
  | nil =>
    intro st _
    rfl
  | cons r L ih =>
    intro st hL
    rw [List.foldl_cons]
    have hstep : scanStep img target tol st r = st := by
      rw [scanStep]
      by_cases hv : r ∈ st.1
      · rw [if_pos hv]
      · rw [if_neg hv,
          flood_fill_no_match img target tol st.1 r hv (hL r (List.mem_cons_self _ _))]
    rw [hstep]
    exact ih st (fun r' hr' => hL r' (List.mem_cons_of_mem _ hr'))

/-- In an image whose only good pixels are two corner-touching pixels,
no connectivity step leaves either of them, so each is the sole pixel it
reaches. -/
theorem reach_fixed (img : Image) (target : Color) (tol : Int) (p q : Pos)
    (hdiag : diagAdj p q)
    (hm : ∀ c, goodPix img target tol c → c = p ∨ c = q) :
    (∀ c, Reach img target tol p c → c = p)
    ∧ ∀ c, Reach img target tol q c → c = q := by
  obtain ⟨px, py⟩ := p
  obtain ⟨qx, qy⟩ := q
  simp only [diagAdj] at hdiag
  obtain ⟨hd1, hd2⟩ := hdiag
  have hnop : ∀ b, ¬ fillStep img target tol (px, py) b := by
    intro b hb
    obtain ⟨hg, hadj⟩ := hb
    simp only [adj4] at hadj
    rcases hm b hg with rfl | rfl <;>
      rcases hadj with h | h | h | h <;>
      simp only [Prod.mk.injEq] at h <;>
      omega
  have hnoq : ∀ b, ¬ fillStep img target tol (qx, qy) b := by
    intro b hb
    obtain ⟨hg, hadj⟩ := hb
    simp only [adj4] at hadj
    rcases hm b hg with rfl | rfl <;>
      rcases hadj with h | h | h | h <;>
      simp only [Prod.mk.injEq] at h <;>
      omega
  constructor
  · intro c hc
    rcases Relation.ReflTransGen.cases_head hc with h | ⟨b, hb, _⟩
    · exact h.symm
    · exact absurd hb (hnop b)
  · intro c hc
    rcases Relation.ReflTransGen.cases_head hc with h | ⟨b, hb, _⟩
    · exact h.symm
    · exact absurd hb (hnoq b)

/-- flood_fill at an unvisited good pixel that reaches only itself
produces the unit blob at that pixel and visits nothing else new. -/
theorem flood_fill_singleton (img : Image) (target : Color) (tol : Int)
    (v : List Pos) (x : Pos) (hnv : x ∉ v) (hg : goodPix img target tol x)
    (hfix : ∀ c, Reach img target tol x c → c = x) :
    ∃ v', flood_fill img target tol v x = (some (centroidOf [x]), v')
      ∧ ∀ a ∈ v', a ∈ v ∨ a = x := by
  obtain ⟨x1, x2⟩ := x
  have hall : ∀ e ∈ (bfsLoop img target tol (bfsFuel img) [(x1, x2)] v []).2,
      e = (x1, x2) := by
    intro e he
    refine hfix e (bfsLoop_sound img target tol (x1, x2) (bfsFuel img)
      [(x1, x2)] v [] ?_ (fun p hp => absurd hp (List.not_mem_nil p)) e he)
    intro p hp _
    have hp1 : p = (x1, x2) := by simpa using hp
    rw [hp1]
    exact Relation.ReflTransGen.refl
  have hxmem : (x1, x2) ∈ (bfsLoop img target tol (bfsFuel img) [(x1, x2)] v []).2 := by
    show (x1, x2) ∈
      (bfsLoop img target tol (4 * img.width * img.height + 1) [(x1, x2)] v []).2
    exact bfsLoop_start_mem img target tol _ x1 x2 [] v [] hnv hg.1 hg.2
  have hnd : (bfsLoop img target tol (bfsFuel img) [(x1, x2)] v []).2.Nodup :=
    bfsLoop_comp_nodup img target tol (bfsFuel img) [(x1, x2)] v []
      List.nodup_nil (fun p hp => absurd hp (List.not_mem_nil p))
  have hsing : (bfsLoop img target tol (bfsFuel img) [(x1, x2)] v []).2 = [(x1, x2)] :=
    eq_singleton_of_nodup hnd hall hxmem
  refine ⟨(bfsLoop img target tol (bfsFuel img) [(x1, x2)] v []).1, ?_, ?_⟩
  · simp only [flood_fill]
    rw [if_neg hnv, if_neg (not_not_intro hg.2), hsing]
    rw [if_neg (by exact fun h => List.cons_ne_nil _ _ h :
      ¬ ([((x1 : Int), (x2 : Int))] : List Pos) = [])]
  · intro a ha
    rcases bfsLoop_visited_sub img target tol (bfsFuel img) [(x1, x2)] v [] a ha
      with h | h
    · exact Or.inl h
    · rw [hsing] at h
      exact Or.inr (by simpa using h)

/-- A duplicate-free list containing two distinct elements splits around
them, in one order or the other, with all other segments avoiding both. -/
theorem nodup_split_two {α : Type} {l : List α} (hn : l.Nodup) {a b : α}
    (ha : a ∈ l) (hb : b ∈ l) (hab : a ≠ b) :
    ∃ (x y : α) (L1 L2 L3 : List α),
      l = L1 ++ x :: (L2 ++ y :: L3)
      ∧ ((x = a ∧ y = b) ∨ (x = b ∧ y = a))
      ∧ ∀ r, (r ∈ L1 ∨ r ∈ L2 ∨ r ∈ L3) → r ≠ a ∧ r ≠ b := by
  obtain ⟨S, T, rfl⟩ := List.append_of_mem ha
  rw [List.nodup_append] at hn
  obtain ⟨hS, haT', hdisj⟩ := hn
  rw [List.nodup_cons] at haT'
  obtain ⟨haT, hT⟩ := haT'
  have haS : a ∉ S := fun h => hdisj h (List.mem_cons_self _ _)
  rcases List.mem_append.mp hb with hbS | hbaT
  · obtain ⟨B, C, rfl⟩ := List.append_of_mem hbS
    rw [List.nodup_append] at hS
    obtain ⟨hB, hbC', hdisjBC⟩ := hS
    rw [List.nodup_cons] at hbC'
    obtain ⟨hbC, hC⟩ := hbC'
    have hbB : b ∉ B := fun h => hdisjBC h (List.mem_cons_self _ _)
    have hbT : b ∉ T := fun h =>
      hdisj hbS (List.mem_cons_of_mem _ h)
    refine ⟨b, a, B, C, T, by simp, Or.inr ⟨rfl, rfl⟩, ?_⟩
    intro r hr
    rcases hr with h | h | h
    · exact ⟨fun he => haS (he ▸ List.mem_append_left _ h),
        fun he => hbB (he ▸ h)⟩
    · exact ⟨fun he => haS (he ▸ List.mem_append_right _
          (List.mem_cons_of_mem _ h)),
        fun he => hbC (he ▸ h)⟩
    · exact ⟨fun he => haT (he ▸ h), fun he => hbT (he ▸ h)⟩
  · have hbT : b ∈ T := by
      rcases List.mem_cons.mp hbaT with h | h
      · exact absurd h.symm hab
      · exact h
    obtain ⟨B, C, rfl⟩ := List.append_of_mem hbT
    rw [List.nodup_append] at hT
    obtain ⟨hB, hbC', hdisjBC⟩ := hT
    rw [List.nodup_cons] at hbC'
    obtain ⟨hbC, hC⟩ := hbC'
    have hbB : b ∉ B := fun h => hdisjBC h (List.mem_cons_self _ _)
    have hbS : b ∉ S := fun h => hdisj h (List.mem_cons_of_mem _ hbT)
    have haB : a ∉ B := fun h => haT (List.mem_append_left _ h)
    have haC : a ∉ C := fun h =>
      haT (List.mem_append_right _ (List.mem_cons_of_mem _ h))
    refine ⟨a, b, S, B, C, rfl, Or.inl ⟨rfl, rfl⟩, ?_⟩
    intro r hr
    rcases hr with h | h | h
    · exact ⟨fun he => haS (he ▸ h), fun he => hbS (he ▸ h)⟩
    · exact ⟨fun he => haB (he ▸ h), fun he => hbB (he ▸ h)⟩
    · exact ⟨fun he => haC (he ▸ h), fun he => hbC (he ▸ h)⟩

/-- Running the scan over a position list that contains exactly two good
pixels, each reaching only itself, produces exactly their two unit
blobs. -/
theorem scan_process (img : Image) (target : Color) (tol : Int)
    (u w : Pos) (L1 L2 L3 : List Pos) (huw : u ≠ w)
    (hgu : goodPix img target tol u) (hgw : goodPix img target tol w)
    (hfixu : ∀ c, Reach img target tol u c → c = u)
    (hfixw : ∀ c, Reach img target tol w c → c = w)
    (hL : ∀ r, (r ∈ L1 ∨ r ∈ L2 ∨ r ∈ L3) →
      matches_color target tol (img.pixel r.1 r.2) = false) :
    ((L1 ++ u :: (L2 ++ w :: L3)).foldl (scanStep img target tol) ([], [])).2
      = [centroidOf [u], centroidOf [w]] := by
  rw [List.foldl_append]
  rw [scan_fold_no_match img target tol L1 ([], [])
    (fun r hr => hL r (Or.inl hr))]
  rw [List.foldl_cons]
  obtain ⟨v1, hffu, hv1⟩ :=
    flood_fill_singleton img target tol [] u (List.not_mem_nil u) hgu hfixu
  have hstep1 : scanStep img target tol ([], []) u = (v1, [centroidOf [u]]) := by
    rw [scanStep, if_neg (List.not_mem_nil u), hffu]
    rfl
  rw [hstep1, List.foldl_append]
  rw [scan_fold_no_match img target tol L2 (v1, [centroidOf [u]])
    (fun r hr => hL r (Or.inr (Or.inl hr)))]
  rw [List.foldl_cons]
  have hwv1 : w ∉ v1 := by
    intro hw
    rcases hv1 w hw with h | h
    · exact List.not_mem_nil w h
    · exact huw h.symm
  obtain ⟨v2, hffw, hv2⟩ :=
    flood_fill_singleton img target tol v1 w hwv1 hgw hfixw
  have hstep2 : scanStep img target tol (v1, [centroidOf [u]]) w
      = (v2, [centroidOf [u], centroidOf [w]]) := by
    rw [scanStep]
    rw [if_neg (by exact hwv1 : ¬ w ∈ (v1, [centroidOf [u]]).1), hffw]
    rfl
  rw [hstep2]
  rw [scan_fold_no_match img target tol L3 _
    (fun r hr => hL r (Or.inr (Or.inr hr)))]

/-- C5: blob connectivity is 4-neighbor only: in any image whose matching
pixels are exactly two pixels p and q touching only at a corner, no BFS
fill from any start with any visited set ever collects both p and q into
one component, and the scan reports exactly two blobs of area 1 each. -/
theorem diagonal_pixels_two_unit_blobs (img : Image) (target : Color)
    (tol : Int) (p q : Pos) (hdiag : diagAdj p q)
    (hp : p ∈ scanPositions img) (hq : q ∈ scanPositions img)
    (hmatch : ∀ c ∈ scanPositions img,
      (matches_color target tol (img.pixel c.1 c.2) = true ↔ (c = p ∨ c = q))) :
    (∀ (v : List Pos) (s : Pos),
      ¬ (p ∈ (bfsLoop img target tol (bfsFuel img) [s] v []).2
         ∧ q ∈ (bfsLoop img target tol (bfsFuel img) [s] v []).2))
    ∧ (find_connected_components img target tol).length = 2
    ∧ ∀ comp ∈ find_connected_components img target tol, comp.2.2 = 1 := by
  have hpq : p ≠ q := by
    obtain ⟨p1, p2⟩ := p
    obtain ⟨q1, q2⟩ := q
    simp only [diagAdj] at hdiag
    intro h
    rw [Prod.mk.injEq] at h
    omega
  have hinp : inBounds img p := (mem_scanPositions img p).mp hp
  have hinq : inBounds img q := (mem_scanPositions img q).mp hq
  have hgp : goodPix img target tol p := ⟨hinp, (hmatch p hp).mpr (Or.inl rfl)⟩
  have hgq : goodPix img target tol q := ⟨hinq, (hmatch q hq).mpr (Or.inr rfl)⟩
  have hgood : ∀ c, goodPix img target tol c → c = p ∨ c = q := by
    intro c hc
    exact (hmatch c ((mem_scanPositions img c).mpr hc.1)).mp hc.2
  obtain ⟨hfixp, hfixq⟩ := reach_fixed img target tol p q hdiag hgood
  constructor
  · rintro v s ⟨hpmem, hqmem⟩
    by_cases hgs : goodPix img target tol s
    · have hsound : ∀ e ∈ (bfsLoop img target tol (bfsFuel img) [s] v []).2,
          Reach img target tol s e := by
        refine bfsLoop_sound img target tol s (bfsFuel img) [s] v [] ?_
          (fun r hr => absurd hr (List.not_mem_nil r))
        intro r hr _
        have hrs : r = s := by simpa using hr
        rw [hrs]
        exact Relation.ReflTransGen.refl
      rcases hgood s hgs with rfl | rfl
      · exact hpq (hfixp q (hsound q hqmem)).symm
      · exact hpq (hfixq p (hsound p hpmem))
    · have hempty := bfsLoop_single_not_good img target tol (bfsFuel img) v [] s hgs
      rw [hempty] at hpmem
      exact List.not_mem_nil p hpmem
  · obtain ⟨x, y, L1, L2, L3, hsplit, hxy, havoid⟩ :=
      nodup_split_two (scanPositions_nodup img) hp hq hpq
    have hLmatch : ∀ r, (r ∈ L1 ∨ r ∈ L2 ∨ r ∈ L3) →
        matches_color target tol (img.pixel r.1 r.2) = false := by
      intro r hr
      have hrs : r ∈ scanPositions img := by
        rw [hsplit]
        rcases hr with h | h | h
        · exact List.mem_append_left _ h
        · exact List.mem_append_right _
            (List.mem_cons_of_mem _ (List.mem_append_left _ h))
        · exact List.mem_append_right _ (List.mem_cons_of_mem _
            (List.mem_append_right _ (List.mem_cons_of_mem _ h)))
      have hne := havoid r hr
      cases hmc : matches_color target tol (img.pixel r.1 r.2)
      · rfl
      · rcases (hmatch r hrs).mp hmc with h | h
        · exact absurd h hne.1
        · exact absurd h hne.2
    have hscan : ∃ c1 c2 : ℚ × ℚ × Nat,
        find_connected_components img target tol = [c1, c2]
          ∧ c1.2.2 = 1 ∧ c2.2.2 = 1 := by
      rcases hxy with ⟨hx, hy⟩ | ⟨hx, hy⟩
      · rw [hx, hy] at hsplit
        refine ⟨centroidOf [p], centroidOf [q], ?_, rfl, rfl⟩
        rw [find_connected_components, hsplit]
        exact scan_process img target tol p q L1 L2 L3 hpq hgp hgq
          hfixp hfixq hLmatch
      · rw [hx, hy] at hsplit
        refine ⟨centroidOf [q], centroidOf [p], ?_, rfl, rfl⟩
        rw [find_connected_components, hsplit]
        exact scan_process img target tol q p L1 L2 L3 (Ne.symm hpq) hgq hgp
          hfixq hfixp hLmatch
    obtain ⟨c1, c2, hfc, h1, h2⟩ := hscan
    rw [hfc]
    refine ⟨rfl, ?_⟩
    intro comp hcomp
    rcases List.mem_cons.mp hcomp with rfl | hcomp
    · exact h1
    rcases List.mem_cons.mp hcomp with rfl | hcomp
    · exact h2
    · exact absurd hcomp (List.not_mem_nil comp)

/-- Witness for C5 on a concrete 2x2 image whose two AZ-red pixels touch
only at a corner: exactly two blobs of area 1 are reported. -/
theorem diagonal_pixels_two_unit_blobs_witness :
    diagAdj ((0 : Int), (0 : Int)) ((1 : Int), (1 : Int))
    ∧ ((0, 0) : Pos) ∈ scanPositions imgDiag
    ∧ ((1, 1) : Pos) ∈ scanPositions imgDiag
    ∧ (∀ c ∈ scanPositions imgDiag,
        (matches_color (COLORS AZ) COLOR_TOLERANCE (imgDiag.pixel c.1 c.2) = true
          ↔ (c = (0, 0) ∨ c = (1, 1))))
    ∧ (find_connected_components imgDiag (COLORS AZ) COLOR_TOLERANCE).length = 2
    ∧ ∀ comp ∈ find_connected_components imgDiag (COLORS AZ) COLOR_TOLERANCE,
        comp.2.2 = 1 := by
  have hd : diagAdj ((0 : Int), (0 : Int)) ((1 : Int), (1 : Int)) := by
    simp [diagAdj]
  have hp : ((0, 0) : Pos) ∈ scanPositions imgDiag := by
    with_unfolding_all decide
  have hq : ((1, 1) : Pos) ∈ scanPositions imgDiag := by
    with_unfolding_all decide
  have hm : ∀ c ∈ scanPositions imgDiag,
      (matches_color (COLORS AZ) COLOR_TOLERANCE (imgDiag.pixel c.1 c.2) = true
        ↔ (c = (0, 0) ∨ c = (1, 1))) := by
    with_unfolding_all decide
  have main := diagonal_pixels_two_unit_blobs imgDiag (COLORS AZ)
    COLOR_TOLERANCE (0, 0) (1, 1) hd hp hq hm
  exact ⟨hd, hp, hq, hm, main.2.1, main.2.2⟩

end RBMK
